import Mathlib

/-!
Verification development for the LS (direct KKT / least-squares) solver
interface: variable offset assignment, quadratic/affine system assembly,
the direct sparse solve wrapper, and result formatting.

Matrices are modelled by a shape-carrying structure over ℚ; every matrix
produced by the operations below reads 0 outside its declared shape
(numpy/scipy matrices have no out-of-bounds entries).  The external
collaborators (the quadratic-coefficient extractor, the affine-coefficient
extractor and the direct sparse solver) enter as parameters: the solver
returns `none` exactly when it raises the numeric failure
(`ArithmeticError`) that the source catches.
-/

open BigOperators

/-- A rational matrix with an explicit shape, modelling numpy/scipy
matrices.  Operations below produce entry functions that return 0 outside
the declared shape. -/
structure Mat where
  rows : Nat
  cols : Nat
  entry : Nat → Nat → ℚ

@[ext] theorem Mat.ext {A B : Mat} (hr : A.rows = B.rows) (hc : A.cols = B.cols)
    (he : A.entry = B.entry) : A = B := by
  cases A; cases B; cases hr; cases hc; cases he; rfl

namespace Mat

/-- numpy `A.transpose()`. -/
def transpose (A : Mat) : Mat :=
  ⟨A.cols, A.rows, fun i j => if i < A.cols ∧ j < A.rows then A.entry j i else 0⟩

/-- scipy sparse matrix–vector product `A*x`: entry `i` is `∑ j, A[i,j]*x[j]`. -/
def mulVec (A : Mat) (v : List ℚ) : List ℚ :=
  (List.range A.rows).map fun i => ∑ j in Finset.range A.cols, A.entry i j * v.getD j 0

/-- scipy `sp.vstack` of two blocks (the column count is taken from the
first block; scipy requires all blocks to agree). -/
def vstack2 (A B : Mat) : Mat :=
  ⟨A.rows + B.rows, A.cols, fun i j =>
    if i < A.rows + B.rows ∧ j < A.cols then
      if i < A.rows then A.entry i j else B.entry (i - A.rows) j
    else 0⟩

end Mat

/-- scipy `sp.vstack` on a list of blocks (the source only calls it on
nonempty lists). -/
def vstackL : List Mat → Mat
  | [] => ⟨0, 0, fun _ _ => 0⟩
  | [A] => A
  | A :: B :: rest => Mat.vstack2 A (vstackL (B :: rest))

/-- scipy `sp.bmat([[P, B], [C, None]])`: a 2×2 block matrix whose
bottom-right block is zero, with block sizes inferred from `P`, `B`, `C`. -/
def bmat2 (P B C : Mat) : Mat :=
  ⟨P.rows + C.rows, P.cols + B.cols, fun i j =>
    if i < P.rows + C.rows ∧ j < P.cols + B.cols then
      if i < P.rows then
        (if j < P.cols then P.entry i j else B.entry i (j - P.cols))
      else
        (if j < P.cols then C.entry (i - P.rows) j else 0)
    else 0⟩

/-- Elementwise negation of a vector, numpy `-q`. -/
def negL (v : List ℚ) : List ℚ := v.map fun a => -a

/-- `np.dot` of two vectors: sum of elementwise products. -/
def dotL (a b : List ℚ) : ℚ := (List.zipWith (fun x y => x * y) a b).sum

namespace settings

/-- Modelled from the spec: the settings module holding these string
constants is not part of this unit; the spec names the result-record
entries status, objective value, primal solution and equality dual.  This
is the status key. -/
def STATUS : String := "status"

/-- Modelled from the spec: the result-record key for the optimal
objective value. -/
def VALUE : String := "value"

/-- Modelled from the spec: the result-record key for the primal
solution. -/
def PRIMAL : String := "primal"

/-- Modelled from the spec: the result-record key for the
equality-constraint dual. -/
def EQ_DUAL : String := "eq_dual"

/-- Modelled from the spec: the status string reported on success. -/
def OPTIMAL : String := "optimal"

/-- Modelled from the spec: the status string reported when the solve
fails. -/
def INFEASIBLE : String := "infeasible"

end settings

/-- A python value stored in the results dictionary. -/
inductive PyVal where
  | none
  | num (v : ℚ)
  | vec (v : List ℚ)
  | str (s : String)
  deriving DecidableEq

/-- An optional number as stored in a python dict (`None` when absent). -/
def pyOfNum : Option ℚ → PyVal
  | Option.none => PyVal.none
  | Option.some v => PyVal.num v

/-- An optional vector as stored in a python dict (`None` when absent). -/
def pyOfVec : Option (List ℚ) → PyVal
  | Option.none => PyVal.none
  | Option.some v => PyVal.vec v

/-- The runtime class of a decision variable: `Variable`,
`SymmetricUpperTri`, or any other variable subclass. -/
inductive VarKind where
  | plain
  | symUpperTri
  | other
  deriving DecidableEq

/-- The runtime class of a constraint: equality (`EqConstraint`),
inequality, or anything else. -/
inductive ConstrKind where
  | eqConstr
  | leqConstr
  | otherConstr
  deriving DecidableEq

/-- A decision variable as seen by `LS.suitable`: its runtime class and
its implicit domain restrictions (`v.domain`, a python list whose truthiness
is tested). -/
structure PVar where
  kind : VarKind
  domain : List Unit
  deriving DecidableEq

/-- A problem description as consumed by `LS.suitable`: the DCP flag, the
two predicates of `prob.objective.args[0]`, the constraint classes and the
variable list. -/
structure Problem where
  isDcp : Bool
  objIsQuadratic : Bool
  objIsAffine : Bool
  constraints : List ConstrKind
  varList : List PVar
  deriving DecidableEq

namespace LS

/-- `allowedVariables` from `LS.suitable`: the tuple
`(var.variable.Variable, var.symmetric.SymmetricUpperTri)`. -/
def allowedVariables : List VarKind := [VarKind.plain, VarKind.symUpperTri]

/-- `LS.suitable`: the applicability predicate. -/
def suitable (prob : Problem) : Bool :=
  prob.isDcp && prob.objIsQuadratic && !prob.objIsAffine
    && prob.constraints.all (fun c => decide (c = ConstrKind.eqConstr))
    && prob.varList.all (fun v => allowedVariables.contains v.kind)
    && prob.varList.all (fun v => v.domain.isEmpty)

/-- A decision variable as seen by `get_var_offsets`: identifier `x.id`
and shape `x.size = (rows, cols)`. -/
structure Var where
  id : Nat
  rows : Nat
  cols : Nat
  deriving DecidableEq

/-- `x.size[0]*x.size[1]`: the flattened size of a variable. -/
def Var.flatSize (v : Var) : Nat := v.rows * v.cols

/-- Python dict assignment `d[k] = v` on an association list: replaces the
binding if the key is present, otherwise appends it. -/
def dictInsert {α : Type} : List (Nat × α) → Nat → α → List (Nat × α)
  | [], k, v => [(k, v)]
  | (k', v') :: rest, k, v =>
      if k' = k then (k, v) :: rest else (k', v') :: dictInsert rest k v

/-- The loop of `FakeSymData.get_var_offsets`, threading the two dicts and
the running offset. -/
def gvoLoop : List Var → List (Nat × Nat) → List (Nat × (Nat × Nat)) → Nat →
    List (Nat × Nat) × List (Nat × (Nat × Nat)) × Nat
  | [], offs, szs, vert => (offs, szs, vert)
  | x :: rest, offs, szs, vert =>
      gvoLoop rest (dictInsert offs x.id vert) (dictInsert szs x.id (x.rows, x.cols))
        (vert + x.rows * x.cols)

/-- `FakeSymData.get_var_offsets`: returns `(var_offsets, var_sizes,
vert_offset)`. -/
def get_var_offsets (vs : List Var) :
    List (Nat × Nat) × List (Nat × (Nat × Nat)) × Nat :=
  gvoLoop vs [] [] 0

/-- `P = M[:N, :N]`. -/
def Pmat (N : Nat) (M : Mat) : Mat :=
  ⟨N, N, fun i j => if i < N ∧ j < N then M.entry i j else 0⟩

/-- `M[:N, N]`: the first `N` entries of the last column of `M`. -/
def lastColSeg (N : Nat) (M : Mat) : List ℚ :=
  (List.range N).map fun i => M.entry i N

/-- `M[N, :N].transpose()`: the first `N` entries of the last row of `M`,
as a column. -/
def lastRowSeg (N : Nat) (M : Mat) : List ℚ :=
  (List.range N).map fun j => M.entry N j

/-- `q = (M[:N, N] + M[N, :N].transpose())/2`. -/
def qvec (N : Nat) (M : Mat) : List ℚ :=
  (List.zipWith (fun a b => a + b) (lastColSeg N M) (lastRowSeg N M)).map fun a => a / 2

/-- `As = sp.vstack([C[0] for C in Cs])`: the stacked constraint matrices. -/
def assembleAs (cs : List (Mat × List ℚ)) : Mat := vstackL (cs.map Prod.fst)

/-- `bs = np.vstack([C[1] for C in Cs])`: the stacked constant vectors. -/
def assembleBs (cs : List (Mat × List ℚ)) : List ℚ := (cs.map Prod.snd).flatten

/-- `AA`: the saddle-point matrix `sp.bmat([[P, As.transpose()], [As,
None]])` when there are constraints, else `P`. -/
def solveAA (N : Nat) (M : Mat) (cs : List (Mat × List ℚ)) : Mat :=
  if cs.length > 0 then
    bmat2 (Pmat N M) (Mat.transpose (assembleAs cs)) (assembleAs cs)
  else Pmat N M

/-- `BB`: the right-hand side `np.vstack([-q, -bs])` when there are
constraints, else `-q`. -/
def solveBB (N : Nat) (M : Mat) (cs : List (Mat × List ℚ)) : List ℚ :=
  if cs.length > 0 then negL (qvec N M) ++ negL (assembleBs cs)
  else negL (qvec N M)

/-- `p_star`: `s = np.dot(x.T, P*x)`, `t = np.dot(q.T, x)`,
`p_star = (s + 2*t)[0, 0] + r`, with `x` the first `N` entries of the
solution. -/
def pStar (N : Nat) (M : Mat) (sol : List ℚ) : ℚ :=
  dotL (sol.take N) ((Pmat N M).mulVec (sol.take N))
    + 2 * dotL (qvec N M) (sol.take N) + M.entry N N

/-- `LS.format_results`: packages `(x, nu, p_star)` into the standard
result dictionary, in insertion order. -/
def format_results (x nu : Option (List ℚ)) (p_star : Option ℚ) :
    List (String × PyVal) :=
  match x with
  | Option.some xv =>
      [(settings.VALUE, pyOfNum p_star), (settings.STATUS, PyVal.str settings.OPTIMAL),
       (settings.PRIMAL, PyVal.vec xv), (settings.EQ_DUAL, pyOfVec nu)]
  | Option.none => [(settings.STATUS, PyVal.str settings.INFEASIBLE)]

/-- The tail of `LS.solve` around the `SLA.spsolve` call: on success the
solution is split into `x = BB[:N]`, `nu = BB[N:]` and the objective value
is recomputed from `P`, `q`, `r`; the caught `ArithmeticError` sets all
three to `None`. -/
def processResult (N : Nat) (M : Mat) : Option (List ℚ) → List (String × PyVal)
  | Option.some sol =>
      format_results (Option.some (sol.take N)) (Option.some (sol.drop N))
        (Option.some (pStar N M sol))
  | Option.none => format_results Option.none Option.none Option.none

/-- `LS.solve`, with the external collaborators as parameters: `M` is the
`(N+1)×(N+1)` output of `u.quad_coeffs` on the objective, `cs` the list of
`u.affine_coeffs` outputs `(A_i, b_i)` for the constraints, and `sp` the
direct sparse solver, whose `none` result models the raised numeric
failure (`ArithmeticError`) that the source catches. -/
def solve (sp : Mat → List ℚ → Option (List ℚ)) (N : Nat) (M : Mat)
    (cs : List (Mat × List ℚ)) : List (String × PyVal) :=
  processResult N M (sp (solveAA N M cs) (solveBB N M cs))

end LS

/-- Spec-side formula: the objective value `x^T P x + 2 q^T x + r` written
as explicit sums over the extracted `P`, `q`, `r`, with `x` the first `N`
entries of the solution vector. -/
def objValueSpec (N : Nat) (M : Mat) (sol : List ℚ) : ℚ :=
  (∑ i in Finset.range N, ∑ j in Finset.range N,
      sol.getD i 0 * (LS.Pmat N M).entry i j * sol.getD j 0)
    + 2 * (∑ i in Finset.range N, (LS.qvec N M).getD i 0 * sol.getD i 0)
    + M.entry N N

/-- Sum of the flattened sizes of the first `i` variables: the offset the
loop of `get_var_offsets` has reached after `i` iterations. -/
def offsetAt (vs : List LS.Var) (i : Nat) : Nat :=
  ((vs.take i).map LS.Var.flatSize).sum

/-- Spec-side predicate: the offsets returned by `get_var_offsets` give
every variable a contiguous range of its flattened size, the ranges are
pairwise disjoint, fit below the returned total length `N`, and cover all
of `[0, N)`, with `N` the sum of the flattened sizes. -/
def offsetsPartition (vs : List LS.Var) : Prop :=
  (LS.get_var_offsets vs).2.2 = (vs.map LS.Var.flatSize).sum
  ∧ (∀ v ∈ vs, ∃ o, List.lookup v.id (LS.get_var_offsets vs).1 = Option.some o ∧
      o + v.flatSize ≤ (LS.get_var_offsets vs).2.2)
  ∧ (∀ u ∈ vs, ∀ v ∈ vs, u.id ≠ v.id →
      ∀ ou ov, List.lookup u.id (LS.get_var_offsets vs).1 = Option.some ou →
        List.lookup v.id (LS.get_var_offsets vs).1 = Option.some ov →
        ∀ k, ou ≤ k ∧ k < ou + u.flatSize → ¬(ov ≤ k ∧ k < ov + v.flatSize))
  ∧ (∀ k, k < (LS.get_var_offsets vs).2.2 →
      ∃ v ∈ vs, ∃ o, List.lookup v.id (LS.get_var_offsets vs).1 = Option.some o ∧
        o ≤ k ∧ k < o + v.flatSize)

/-- Spec-side predicate: with at least one constraint, the right-hand side
is `[-q; -bs]` and `AA` is the symmetric saddle-point block matrix
`[[P, As^T], [As, 0]]` built from the stacked constraint data. -/
def saddleSystemSpec (N : Nat) (M : Mat) (cs : List (Mat × List ℚ)) : Prop :=
  LS.solveBB N M cs = negL (LS.qvec N M) ++ negL (LS.assembleBs cs)
  ∧ (LS.solveAA N M cs).rows = N + (LS.assembleAs cs).rows
  ∧ (LS.solveAA N M cs).cols = N + (LS.assembleAs cs).rows
  ∧ (∀ i j, i < N → j < N →
      (LS.solveAA N M cs).entry i j = (LS.Pmat N M).entry i j)
  ∧ (∀ i j, i < N → N ≤ j → j < N + (LS.assembleAs cs).rows →
      (LS.solveAA N M cs).entry i j = (LS.assembleAs cs).entry (j - N) i)
  ∧ (∀ i j, N ≤ i → i < N + (LS.assembleAs cs).rows → j < N →
      (LS.solveAA N M cs).entry i j = (LS.assembleAs cs).entry (i - N) j)
  ∧ (∀ i j, N ≤ i → i < N + (LS.assembleAs cs).rows →
      N ≤ j → j < N + (LS.assembleAs cs).rows →
      (LS.solveAA N M cs).entry i j = 0)

/-- C4: with an empty constraint list no block matrix is assembled: the
system handed to the direct sparse solver is exactly `P x = -q`. -/
theorem empty_constraints_solves_P_negq (sp : Mat → List ℚ → Option (List ℚ))
    (N : Nat) (M : Mat) :
    LS.solveAA N M [] = LS.Pmat N M ∧ LS.solveBB N M [] = negL (LS.qvec N M) ∧
      LS.solve sp N M [] =
        LS.processResult N M (sp (LS.Pmat N M) (negL (LS.qvec N M))) :=
  ⟨rfl, rfl, rfl⟩

/-- C1: when the direct sparse solve fails numerically (the solver
parameter returns `none`, modelling the raised `ArithmeticError` the
source catches), `solve` returns the infeasible result record — status
`"infeasible"`, with objective value, primal and dual absent — rather than
propagating the failure (the embedding of `solve` is a total function). -/
theorem solver_failure_infeasible (sp : Mat → List ℚ → Option (List ℚ))
    (N : Nat) (M : Mat) (cs : List (Mat × List ℚ))
    (h : sp (LS.solveAA N M cs) (LS.solveBB N M cs) = Option.none) :
    LS.solve sp N M cs = [(settings.STATUS, PyVal.str settings.INFEASIBLE)] ∧
      List.lookup settings.VALUE (LS.solve sp N M cs) = Option.none ∧
      List.lookup settings.PRIMAL (LS.solve sp N M cs) = Option.none ∧
      List.lookup settings.EQ_DUAL (LS.solve sp N M cs) = Option.none := by
  have e : LS.solve sp N M cs = [(settings.STATUS, PyVal.str settings.INFEASIBLE)] := by
    unfold LS.solve
    rw [h]
    rfl
  refine ⟨e, ?_, ?_, ?_⟩ <;> rw [e] <;> decide

/-- Witness for C1 at a concrete failing solver, `N = 1`, a concrete `M`
and no constraints. -/
theorem solver_failure_infeasible_witness :
    LS.solve (fun _ _ => Option.none) 1 ⟨2, 2, fun _ _ => 1⟩ [] =
        [(settings.STATUS, PyVal.str settings.INFEASIBLE)] ∧
      List.lookup settings.VALUE
          (LS.solve (fun _ _ => Option.none) 1 ⟨2, 2, fun _ _ => 1⟩ []) = Option.none ∧
      List.lookup settings.PRIMAL
          (LS.solve (fun _ _ => Option.none) 1 ⟨2, 2, fun _ _ => 1⟩ []) = Option.none ∧
      List.lookup settings.EQ_DUAL
          (LS.solve (fun _ _ => Option.none) 1 ⟨2, 2, fun _ _ => 1⟩ []) = Option.none :=
  solver_failure_infeasible (fun _ _ => Option.none) 1 ⟨2, 2, fun _ _ => 1⟩ [] rfl

/-- C10: an infeasible result record contains exactly one key, the status
key; the objective-value, primal and dual keys are absent from the
mapping (not present with null values). -/
theorem infeasible_record_single_key (nu : Option (List ℚ)) (p : Option ℚ) :
    LS.format_results Option.none nu p =
        [(settings.STATUS, PyVal.str settings.INFEASIBLE)] ∧
      (LS.format_results Option.none nu p).length = 1 ∧
      List.lookup settings.VALUE (LS.format_results Option.none nu p) = Option.none ∧
      List.lookup settings.PRIMAL (LS.format_results Option.none nu p) = Option.none ∧
      List.lookup settings.EQ_DUAL (LS.format_results Option.none nu p) = Option.none := by
  have e : LS.format_results Option.none nu p =
      [(settings.STATUS, PyVal.str settings.INFEASIBLE)] := rfl
  refine ⟨e, by rw [e]; rfl, ?_, ?_, ?_⟩ <;> rw [e] <;> decide

/-- C8: `format_results` maps an undefined primal to the single-entry
infeasible record, and a defined primal to the record populating all four
keys with the given values; the status is always `"optimal"` or
`"infeasible"`. -/
theorem format_results_spec (x nu : Option (List ℚ)) (p : Option ℚ) :
    (x = Option.none → LS.format_results x nu p =
        [(settings.STATUS, PyVal.str settings.INFEASIBLE)])
    ∧ (∀ xv, x = Option.some xv → LS.format_results x nu p =
        [(settings.VALUE, pyOfNum p), (settings.STATUS, PyVal.str settings.OPTIMAL),
         (settings.PRIMAL, PyVal.vec xv), (settings.EQ_DUAL, pyOfVec nu)])
    ∧ (List.lookup settings.STATUS (LS.format_results x nu p) =
          Option.some (PyVal.str settings.OPTIMAL)
        ∨ List.lookup settings.STATUS (LS.format_results x nu p) =
          Option.some (PyVal.str settings.INFEASIBLE)) := by
  cases x with
  | none =>
      refine ⟨fun _ => rfl, ?_, Or.inr rfl⟩
      intro xv hxv
      exact absurd hxv (by simp)
  | some xv =>
      refine ⟨?_, ?_, Or.inl rfl⟩
      · intro hx
        exact absurd hx (by simp)
      · intro yv hyv
        rw [Option.some.injEq] at hyv
        rw [hyv]
        rfl

/-- Witness for C8 at a concrete defined primal. -/
theorem format_results_spec_witness :
    LS.format_results (Option.some [1]) (Option.some []) (Option.some 2) =
      [(settings.VALUE, pyOfNum (Option.some 2)),
       (settings.STATUS, PyVal.str settings.OPTIMAL),
       (settings.PRIMAL, PyVal.vec [1]), (settings.EQ_DUAL, pyOfVec (Option.some []))] :=
  (format_results_spec (Option.some [1]) (Option.some []) (Option.some 2)).2.1 [1] rfl

/-- C9: for every solver, dimension and quadratic-coefficient matrix,
solving with an empty constraint list yields exactly the same result
record (hence the same primal and objective value) as solving with a
single trivially-satisfied zero-row constraint: both branches hand the
solver the same system. -/
theorem zero_row_constraint_branch_equiv (sp : Mat → List ℚ → Option (List ℚ))
    (N : Nat) (M : Mat) (f : Nat → Nat → ℚ) :
    LS.solve sp N M [] = LS.solve sp N M [(⟨0, N, f⟩, [])] := by
  have hAA : LS.solveAA N M [(⟨0, N, f⟩, [])] = LS.solveAA N M [] := by
    refine Mat.ext rfl rfl ?_
    funext i j
    by_cases hi : i < N <;> by_cases hj : j < N <;>
      simp [LS.solveAA, bmat2, LS.assembleAs, vstackL, Mat.transpose, LS.Pmat, hi, hj]
  have hBB : LS.solveBB N M [(⟨0, N, f⟩, [])] = LS.solveBB N M [] := by
    simp [LS.solveBB, LS.assembleBs, negL]
  unfold LS.solve
  rw [hAA, hBB]

/-- `zipWith` of two maps over the same list is a map over that list. -/
theorem zipWith_map_same {α β γ δ : Type} (h : β → γ → δ) (f : α → β) (g : α → γ) :
    ∀ l : List α, List.zipWith h (l.map f) (l.map g) = l.map fun a => h (f a) (g a)
  | [] => rfl
  | a :: l => by
      simp only [List.map_cons, List.zipWith_cons_cons]
      rw [zipWith_map_same h f g l]

/-- `getD` of a map over `List.range` evaluates the function. -/
theorem getD_map_range (f : Nat → ℚ) (n i : Nat) (h : i < n) :
    ((List.range n).map f).getD i 0 = f i := by
  rw [List.getD_eq_getElem?_getD, List.getElem?_map, List.getElem?_range h]
  rfl

/-- The computed `q` as a map over `List.range`. -/
theorem qvec_eq_map_range (N : Nat) (M : Mat) :
    LS.qvec N M = (List.range N).map fun i => (M.entry i N + M.entry N i) / 2 := by
  unfold LS.qvec LS.lastColSeg LS.lastRowSeg
  rw [zipWith_map_same, List.map_map]
  rfl

/-- C2: the linear-term vector `q` has length `N` and its entry `i` is the
average of entry `i` of the last column of `M` and entry `i` of the last
row of `M`, restoring the symmetry an asymmetric extraction may have
lost. -/
theorem q_symmetry_restoration (N : Nat) (M : Mat) :
    (LS.qvec N M).length = N ∧
      ∀ i, i < N → (LS.qvec N M).getD i 0 = (M.entry i N + M.entry N i) / 2 := by
  constructor
  · rw [qvec_eq_map_range, List.length_map, List.length_range]
  · intro i hi
    rw [qvec_eq_map_range, getD_map_range _ _ _ hi]

/-- Witness for C2 at `N = 1` and a concrete asymmetric `M`. -/
theorem q_symmetry_restoration_witness :
    (LS.qvec 1 ⟨2, 2, fun i j => (i : ℚ) + 2 * j⟩).length = 1 ∧
      (LS.qvec 1 ⟨2, 2, fun i j => (i : ℚ) + 2 * j⟩).getD 0 0 =
        ((⟨2, 2, fun i j => (i : ℚ) + 2 * j⟩ : Mat).entry 0 1 +
          (⟨2, 2, fun i j => (i : ℚ) + 2 * j⟩ : Mat).entry 1 0) / 2 :=
  ⟨(q_symmetry_restoration 1 _).1, (q_symmetry_restoration 1 _).2 0 (by decide)⟩

/-- C7: `suitable` returns true iff the problem is DCP, the objective is
quadratic but not affine, every constraint is an equality constraint,
every variable's runtime class is in the allowed set (plain or symmetric
upper triangular), and no variable carries an implicit domain; as a Lean
function it is a pure predicate. -/
theorem suitable_iff (prob : Problem) :
    LS.suitable prob = true ↔
      prob.isDcp = true ∧ prob.objIsQuadratic = true ∧ prob.objIsAffine = false
      ∧ (∀ c ∈ prob.constraints, c = ConstrKind.eqConstr)
      ∧ (∀ v ∈ prob.varList, v.kind = VarKind.plain ∨ v.kind = VarKind.symUpperTri)
      ∧ (∀ v ∈ prob.varList, v.domain = []) := by
  unfold LS.suitable
  simp [List.all_eq_true, LS.allowedVariables, and_assoc, Bool.not_eq_true',
    List.isEmpty_iff, List.contains_cons, List.contains_nil, beq_iff_eq]

/-- Witness for C7 at a concrete suitable problem. -/
theorem suitable_iff_witness :
    LS.suitable ⟨true, true, false, [ConstrKind.eqConstr], [⟨VarKind.plain, []⟩]⟩ = true :=
  (suitable_iff ⟨true, true, false, [ConstrKind.eqConstr], [⟨VarKind.plain, []⟩]⟩).mpr
    (by decide)

/-- C3: with at least one constraint, the right-hand side handed to the
solver is `[-q; -bs]` and the coefficient matrix is the saddle-point block
matrix `[[P, As^T], [As, 0]]` over the vertically stacked constraint
coefficients, provided the stacked matrix has the `N` columns the
extraction contract guarantees. -/
theorem constrained_saddle_assembly (N : Nat) (M : Mat) (cs : List (Mat × List ℚ))
    (hne : cs ≠ []) (hcols : (LS.assembleAs cs).cols = N) :
    saddleSystemSpec N M cs := by
  have hlen : cs.length > 0 := List.length_pos.mpr hne
  have hAA : LS.solveAA N M cs =
      bmat2 (LS.Pmat N M) (Mat.transpose (LS.assembleAs cs)) (LS.assembleAs cs) := by
    unfold LS.solveAA
    rw [if_pos hlen]
  have hBB : LS.solveBB N M cs = negL (LS.qvec N M) ++ negL (LS.assembleBs cs) := by
    unfold LS.solveBB
    rw [if_pos hlen]
  refine ⟨hBB, ?_, ?_, ?_, ?_, ?_, ?_⟩
  · rw [hAA]; rfl
  · rw [hAA]; rfl
  · intro i j hi hj
    rw [hAA]
    have hi' : i < N + (LS.assembleAs cs).rows := by omega
    have hj' : j < N + (LS.assembleAs cs).rows := by omega
    simp [bmat2, LS.Pmat, Mat.transpose, hi, hj, hi', hj']
  · intro i j hi hjN hj
    rw [hAA]
    have hi' : i < N + (LS.assembleAs cs).rows := by omega
    have h2 : ¬ j < N := by omega
    have h3 : j - N < (LS.assembleAs cs).rows := by omega
    have h4 : i < (LS.assembleAs cs).cols := by omega
    simp [bmat2, LS.Pmat, Mat.transpose, hi, hi', hj, h2, h3, h4]
  · intro i j hiN hi hj
    rw [hAA]
    have hj' : j < N + (LS.assembleAs cs).rows := by omega
    have h2 : ¬ i < N := by omega
    simp [bmat2, LS.Pmat, Mat.transpose, hi, hj, hj', h2]
  · intro i j hiN hi hjN hj
    rw [hAA]
    have h2 : ¬ i < N := by omega
    have h3 : ¬ j < N := by omega
    simp [bmat2, LS.Pmat, Mat.transpose, hi, hj, h2, h3]

/-- Witness for C3 at `N = 1`, a concrete `M` and one 1×1 constraint. -/
theorem constrained_saddle_assembly_witness :
    saddleSystemSpec 1 ⟨2, 2, fun _ _ => 1⟩ [(⟨1, 1, fun _ _ => 3⟩, [5])] :=
  constrained_saddle_assembly 1 ⟨2, 2, fun _ _ => 1⟩ [(⟨1, 1, fun _ _ => 3⟩, [5])]
    (by simp) rfl

/-- `np.dot` as a sum over indices, for vectors of equal length. -/
theorem dotL_eq_sum : ∀ (a b : List ℚ), a.length = b.length →
    dotL a b = ∑ i in Finset.range a.length, a.getD i 0 * b.getD i 0 := by
  intro a
  induction a with
  | nil => intro b h; simp [dotL]
  | cons x xs ih =>
      intro b h
      cases b with
      | nil => simp at h
      | cons y ys =>
          have h' : xs.length = ys.length := by simpa using h
          have e := ih ys h'
          simp only [dotL, List.zipWith_cons_cons, List.sum_cons] at e ⊢
          rw [List.length_cons, Finset.sum_range_succ']
          simp only [List.getD_cons_succ, List.getD_cons_zero]
          rw [← e]
          ring

/-- Entry `i` of a matrix–vector product. -/
theorem mulVec_getD (A : Mat) (v : List ℚ) (i : Nat) (h : i < A.rows) :
    (A.mulVec v).getD i 0 = ∑ j in Finset.range A.cols, A.entry i j * v.getD j 0 := by
  unfold Mat.mulVec
  exact getD_map_range _ _ _ h

/-- `getD` of a prefix agrees with the original list. -/
theorem getD_take (l : List ℚ) (n i : Nat) (h : i < n) :
    (l.take n).getD i 0 = l.getD i 0 := by
  rw [List.getD_eq_getElem?_getD, List.getD_eq_getElem?_getD, List.getElem?_take,
    if_pos h]

/-- The computed `p_star` equals the spec-side objective-value formula. -/
theorem pStar_eq_objValueSpec (N : Nat) (M : Mat) (sol : List ℚ)
    (hlen : N ≤ sol.length) : LS.pStar N M sol = objValueSpec N M sol := by
  have hx : (sol.take N).length = N := by rw [List.length_take]; omega
  have hqlen : (LS.qvec N M).length = N := by
    rw [qvec_eq_map_range, List.length_map, List.length_range]
  have hmv : ((LS.Pmat N M).mulVec (sol.take N)).length = N := by
    unfold Mat.mulVec
    rw [List.length_map, List.length_range]
    rfl
  have h1 : dotL (sol.take N) ((LS.Pmat N M).mulVec (sol.take N)) =
      ∑ i in Finset.range N, ∑ j in Finset.range N,
        sol.getD i 0 * (LS.Pmat N M).entry i j * sol.getD j 0 := by
    rw [dotL_eq_sum _ _ (by rw [hx, hmv]), hx]
    refine Finset.sum_congr rfl ?_
    intro i hi
    rw [Finset.mem_range] at hi
    rw [getD_take _ _ _ hi, mulVec_getD _ _ _ hi]
    rw [show (LS.Pmat N M).cols = N from rfl, Finset.mul_sum]
    refine Finset.sum_congr rfl ?_
    intro j hj
    rw [Finset.mem_range] at hj
    rw [getD_take _ _ _ hj]
    ring
  have h2 : dotL (LS.qvec N M) (sol.take N) =
      ∑ i in Finset.range N, (LS.qvec N M).getD i 0 * sol.getD i 0 := by
    rw [dotL_eq_sum _ _ (by rw [hqlen, hx]), hqlen]
    refine Finset.sum_congr rfl ?_
    intro i hi
    rw [Finset.mem_range] at hi
    rw [getD_take _ _ _ hi]
  unfold LS.pStar objValueSpec
  rw [h1, h2]

/-- C5: on a successful sparse solve, the result record is optimal with
primal block `sol[:N]`, dual block `sol[N:]`, and objective value
`x^T P x + 2 q^T x + r` computed from the extracted `P`, `q`, `r`. -/
theorem solve_success_split_and_value (sp : Mat → List ℚ → Option (List ℚ))
    (N : Nat) (M : Mat) (cs : List (Mat × List ℚ)) (sol : List ℚ)
    (hs : sp (LS.solveAA N M cs) (LS.solveBB N M cs) = Option.some sol)
    (hlen : N ≤ sol.length) :
    LS.solve sp N M cs =
      [(settings.VALUE, PyVal.num (objValueSpec N M sol)),
       (settings.STATUS, PyVal.str settings.OPTIMAL),
       (settings.PRIMAL, PyVal.vec (sol.take N)),
       (settings.EQ_DUAL, PyVal.vec (sol.drop N))] := by
  unfold LS.solve
  rw [hs]
  show LS.format_results (Option.some (sol.take N)) (Option.some (sol.drop N))
      (Option.some (LS.pStar N M sol)) = _
  rw [pStar_eq_objValueSpec N M sol hlen]
  rfl

/-- Witness for C5 at a concrete solver returning `[3, 5]`, `N = 1`, a
concrete `M` and no constraints. -/
theorem solve_success_split_and_value_witness :
    LS.solve (fun _ _ => Option.some [3, 5]) 1 ⟨2, 2, fun _ _ => 1⟩ [] =
      [(settings.VALUE, PyVal.num (objValueSpec 1 ⟨2, 2, fun _ _ => 1⟩ [3, 5])),
       (settings.STATUS, PyVal.str settings.OPTIMAL),
       (settings.PRIMAL, PyVal.vec ([3, 5].take 1)),
       (settings.EQ_DUAL, PyVal.vec ([3, 5].drop 1))] :=
  solve_success_split_and_value (fun _ _ => Option.some [3, 5]) 1 ⟨2, 2, fun _ _ => 1⟩
    [] [3, 5] rfl (by decide)

/-- Looking up the key just inserted by a python dict assignment. -/
theorem dictInsert_lookup_self {α : Type} (k : Nat) (v : α) :
    ∀ l : List (Nat × α), List.lookup k (LS.dictInsert l k v) = Option.some v := by
  intro l
  induction l with
  | nil => simp [LS.dictInsert, List.lookup]
  | cons p rest ih =>
      obtain ⟨k2, v2⟩ := p
      by_cases h : k2 = k
      · subst h
        simp [LS.dictInsert, List.lookup]
      · have hb : (k == k2) = false := by simpa using Ne.symm h
        simp [LS.dictInsert, h, List.lookup, ih, hb]

/-- A python dict assignment leaves other keys unchanged. -/
theorem dictInsert_lookup_ne {α : Type} (k k2 : Nat) (v : α) (h : k ≠ k2) :
    ∀ l : List (Nat × α),
      List.lookup k (LS.dictInsert l k2 v) = List.lookup k l := by
  intro l
  have hb : (k == k2) = false := by simpa using h
  induction l with
  | nil => simp [LS.dictInsert, List.lookup, hb]
  | cons p rest ih =>
      obtain ⟨k3, v3⟩ := p
      by_cases hk : k3 = k2
      · subst hk
        simp [LS.dictInsert, List.lookup, hb]
      · simp only [LS.dictInsert, if_neg hk]
        by_cases he : k = k3
        · subst he
          simp [List.lookup]
        · have hb3 : (k == k3) = false := by simpa using he
          simp [List.lookup, hb3, ih]

/-- The total length returned by the loop: the accumulator plus the sum of
all flattened sizes. -/
theorem gvoLoop_total : ∀ (vs : List LS.Var) (offs : List (Nat × Nat))
    (szs : List (Nat × (Nat × Nat))) (vert : Nat),
    (LS.gvoLoop vs offs szs vert).2.2 = vert + (vs.map LS.Var.flatSize).sum := by
  intro vs
  induction vs with
  | nil => intro offs szs vert; simp [LS.gvoLoop]
  | cons x rest ih =>
      intro offs szs vert
      simp only [LS.gvoLoop]
      rw [ih]
      simp only [List.map_cons, List.sum_cons, LS.Var.flatSize]
      omega

/-- The loop does not touch offsets of identifiers outside the variable
list. -/
theorem gvoLoop_lookup_of_notmem : ∀ (vs : List LS.Var) (k : Nat)
    (offs : List (Nat × Nat)) (szs : List (Nat × (Nat × Nat))) (vert : Nat),
    k ∉ vs.map LS.Var.id →
    List.lookup k (LS.gvoLoop vs offs szs vert).1 = List.lookup k offs := by
  intro vs
  induction vs with
  | nil => intro k offs szs vert _; rfl
  | cons x rest ih =>
      intro k offs szs vert h
      simp only [List.map_cons, List.mem_cons, not_or] at h
      simp only [LS.gvoLoop]
      rw [ih k _ _ _ h.2, dictInsert_lookup_ne k x.id vert h.1]

/-- The running offset reached after `i` loop iterations, as a prefix sum
on a cons cell. -/
theorem offsetAt_cons_succ (x : LS.Var) (rest : List LS.Var) (i : Nat) :
    offsetAt (x :: rest) (i + 1) = x.flatSize + offsetAt rest i := by
  unfold offsetAt
  rw [List.take_succ_cons]
  simp [LS.Var.flatSize]

/-- With pairwise distinct identifiers, variable `i` of the list is
assigned the accumulator plus the sum of the flattened sizes before it. -/
theorem gvoLoop_lookup_get : ∀ (vs : List LS.Var),
    (vs.map LS.Var.id).Nodup →
    ∀ (i : Nat) (h : i < vs.length) (offs : List (Nat × Nat))
      (szs : List (Nat × (Nat × Nat))) (vert : Nat),
      List.lookup (vs.get ⟨i, h⟩).id (LS.gvoLoop vs offs szs vert).1 =
        Option.some (vert + offsetAt vs i) := by
  intro vs
  induction vs with
  | nil => intro _ i h; exact absurd h (Nat.not_lt_zero i)
  | cons x rest ih =>
      intro hnd i h offs szs vert
      simp only [List.map_cons, List.nodup_cons] at hnd
      cases i with
      | zero =>
          simp only [LS.gvoLoop, List.get]
          rw [gvoLoop_lookup_of_notmem rest x.id _ _ _ hnd.1, dictInsert_lookup_self]
          simp [offsetAt]
      | succ i =>
          simp only [LS.gvoLoop, List.get]
          have h2 : i < rest.length := by simpa using h
          rw [ih hnd.2 i h2]
          rw [offsetAt_cons_succ]
          simp only [LS.Var.flatSize]
          rw [Nat.add_assoc]

/-- The prefix-sum offsets grow by the flattened size of the variable at
each index. -/
theorem offsetAt_succ (vs : List LS.Var) (i : Nat) (h : i < vs.length) :
    offsetAt vs (i + 1) = offsetAt vs i + (vs.get ⟨i, h⟩).flatSize := by
  unfold offsetAt
  rw [List.take_succ, List.map_append, List.sum_append, List.getElem?_eq_getElem h]
  simp

/-- The prefix-sum offsets are monotone in one step. -/
theorem offsetAt_le_succ (vs : List LS.Var) (i : Nat) :
    offsetAt vs i ≤ offsetAt vs (i + 1) := by
  by_cases h : i < vs.length
  · rw [offsetAt_succ vs i h]
    exact Nat.le_add_right _ _
  · unfold offsetAt
    rw [List.take_of_length_le (by omega), List.take_of_length_le (by omega)]

/-- The prefix-sum offsets are monotone. -/
theorem offsetAt_mono (vs : List LS.Var) (i j : Nat) (hij : i ≤ j) :
    offsetAt vs i ≤ offsetAt vs j := by
  induction j, hij using Nat.le_induction with
  | base => exact Nat.le_refl _
  | succ j hij ih => exact Nat.le_trans ih (offsetAt_le_succ vs j)

/-- The prefix sum over the whole list is the total length. -/
theorem offsetAt_length (vs : List LS.Var) :
    offsetAt vs vs.length = (vs.map LS.Var.flatSize).sum := by
  unfold offsetAt
  rw [List.take_length]

/-- Every position below the total length falls in the range of some
variable. -/
theorem offsetAt_cover : ∀ (vs : List LS.Var) (k : Nat),
    k < (vs.map LS.Var.flatSize).sum →
    ∃ (i : Nat) (h : i < vs.length),
      offsetAt vs i ≤ k ∧ k < offsetAt vs i + (vs.get ⟨i, h⟩).flatSize := by
  intro vs
  induction vs with
  | nil => intro k hk; simp at hk
  | cons x rest ih =>
      intro k hk
      by_cases hx : k < x.flatSize
      · refine ⟨0, by simp, ?_, ?_⟩
        · simp [offsetAt]
        · simpa [offsetAt] using hx
      · have hk2 : k - x.flatSize < (rest.map LS.Var.flatSize).sum := by
          simp only [List.map_cons, List.sum_cons] at hk
          simp only [LS.Var.flatSize] at hx hk ⊢
          omega
        obtain ⟨i, h, h1, h2⟩ := ih (k - x.flatSize) hk2
        refine ⟨i + 1, by simpa using h, ?_, ?_⟩
        · rw [offsetAt_cons_succ]
          omega
        · rw [offsetAt_cons_succ]
          simp only [List.get_cons_succ]
          omega

/-- C6: for every variable list with pairwise distinct identifiers, the
offsets assigned by `get_var_offsets` give each variable a contiguous
range of its flattened size, the ranges are pairwise disjoint and together
cover exactly `[0, N)`, where `N` is the returned total length, the sum of
the flattened sizes. -/
theorem get_var_offsets_partition (vs : List LS.Var)
    (hnd : (vs.map LS.Var.id).Nodup) : offsetsPartition vs := by
  have htot : (LS.get_var_offsets vs).2.2 = (vs.map LS.Var.flatSize).sum := by
    unfold LS.get_var_offsets
    rw [gvoLoop_total, Nat.zero_add]
  have hlook : ∀ (i : Nat) (h : i < vs.length),
      List.lookup (vs.get ⟨i, h⟩).id (LS.get_var_offsets vs).1 =
        Option.some (offsetAt vs i) := by
    intro i h
    unfold LS.get_var_offsets
    rw [gvoLoop_lookup_get vs hnd i h, Nat.zero_add]
  refine ⟨htot, ?_, ?_, ?_⟩
  · intro v hv
    obtain ⟨⟨i, hi⟩, hgv⟩ := List.mem_iff_get.mp hv
    refine ⟨offsetAt vs i, ?_, ?_⟩
    · rw [← hgv]
      exact hlook i hi
    · rw [htot, ← offsetAt_length, ← hgv, ← offsetAt_succ vs i hi]
      exact offsetAt_mono vs (i + 1) vs.length hi
  · intro u hu v hv hne ou ov hou hov k hk
    obtain ⟨⟨i, hi⟩, hgu⟩ := List.mem_iff_get.mp hu
    obtain ⟨⟨j, hj⟩, hgv⟩ := List.mem_iff_get.mp hv
    have hio : ou = offsetAt vs i := by
      have h2 := hlook i hi
      rw [hgu] at h2
      rw [hou] at h2
      exact Option.some.inj h2
    have hjo : ov = offsetAt vs j := by
      have h2 := hlook j hj
      rw [hgv] at h2
      rw [hov] at h2
      exact Option.some.inj h2
    have hij : i ≠ j := by
      intro e
      apply hne
      rw [← hgu, ← hgv]
      subst e
      rfl
    have hdis : ou + u.flatSize ≤ ov ∨ ov + v.flatSize ≤ ou := by
      rcases Nat.lt_or_ge i j with hlt | hge
      · left
        rw [hio, hjo, ← hgu, ← offsetAt_succ vs i hi]
        exact offsetAt_mono vs (i + 1) j hlt
      · right
        have hlt : j < i := by omega
        rw [hio, hjo, ← hgv, ← offsetAt_succ vs j hj]
        exact offsetAt_mono vs (j + 1) i hlt
    intro hk2
    rcases hdis with hd | hd <;> omega
  · intro k hk
    rw [htot] at hk
    obtain ⟨i, hi, h1, h2⟩ := offsetAt_cover vs k hk
    exact ⟨vs.get ⟨i, hi⟩, List.get_mem vs i hi, offsetAt vs i, hlook i hi, h1, h2⟩

/-- Witness for C6 at two concrete variables with distinct identifiers. -/
theorem get_var_offsets_partition_witness :
    offsetsPartition [⟨0, 1, 1⟩, ⟨1, 2, 3⟩] :=
  get_var_offsets_partition [⟨0, 1, 1⟩, ⟨1, 2, 3⟩] (by decide)
